import Mathlib

/-!
Verification of the Brainfuck LLVM compiler (`src/BrainfuckCompiler.cpp`).

The development shallowly embeds the translation core of the compiler:

* `checkBrackets` — the bracket-balance validator (`BrainfuckCompiler::checkBrackets`),
  returning the boolean result together with the error messages passed to `reportError`.
* `EmitState` and the `handle…` functions — the state of the `IRBuilder`, the
  loop-block stacks (`m_loopStartBlocks` / `m_loopEndBlocks`) and the statistics map
  (`m_statistics`), together with the per-instruction emission functions of
  `BrainfuckCompiler`.  Each LLVM basic block is identified by a `BlockId`
  (`entry`, or `header/body/exit` tagged with the source offset used in the
  block's name, e.g. `loop_header_<ip>`).  A block holds the list of emitted
  effectful instructions (`SInstr`, the net effect of the load/arith/store or call
  sequence each handler emits) and the list of emitted terminators (`Term`;
  well-formed IR has exactly one).
* `generateIR` / `compile` — `BrainfuckCompiler::generateIR` and the pipeline of
  `BrainfuckCompiler::compile` (backend stages after IR generation are recorded
  as pipeline phases only; they are outside the translation core).
* `Machine`, `execSInstr`, `execBlock`, `run` — the runtime semantics of the
  emitted program: a byte array (cells are `Nat` values kept below 256), a
  cursor (`Int`, because the emitted pointer arithmetic is raw `getelementptr`
  with no bound or wrap), an input stream (`getchar` yields the sentinel −1
  once the stream is exhausted, truncated to `i8` by the emitted `trunc`) and
  the output stream of `putchar` arguments.  The cell increment/decrement the
  compiler emits is `add nuw nsw i8` / `sub nuw nsw i8` (`CreateAdd`/`CreateSub`
  with `HasNUW = HasNSW = true`): away from overflow it equals the mod-256
  arithmetic `execSInstr` assigns, but on overflow its result is poison — that
  boundary behavior is modeled by `i8AddOneNuwNsw` / `i8SubOneNuwNsw`.
-/

namespace BFC

/-- The eight instruction characters recognized by `generateIR`
(every other character is skipped). -/
def isInstr (c : Char) : Bool :=
  c == '>' || c == '<' || c == '+' || c == '-' ||
  c == '.' || c == ',' || c == '[' || c == ']'

/-- The eight instruction characters, in the order of the dispatch `switch`. -/
def instrChars : List Char := ['>', '<', '+', '-', '.', ',', '[', ']']

/-- Error message reported by `checkBrackets` when the running bracket counter
would go negative (the message carries no source offset). -/
def closeBracketMsg : String := "语法错误: 多余的右括号 ']'"

/-- Error message reported by `checkBrackets` when the final bracket counter is
nonzero. -/
def openBracketMsg : String := "语法错误: 括号不匹配"

/-- Loop of `BrainfuckCompiler::checkBrackets`: walk the characters keeping a
signed counter, incremented on `[` and decremented on `]`; fail as soon as the
counter goes negative, and at the end fail if it is nonzero.  The returned pair
is the boolean result together with the messages passed to `reportError`. -/
def checkBracketsLoop : List Char → Int → Bool × List String
  | [], n => if n ≠ 0 then (false, [openBracketMsg]) else (true, [])
  | c :: rest, n =>
    if c = '[' then
      checkBracketsLoop rest (n + 1)
    else if c = ']' then
      if n - 1 < 0 then (false, [closeBracketMsg])
      else checkBracketsLoop rest (n - 1)
    else
      checkBracketsLoop rest n

/-- `BrainfuckCompiler::checkBrackets`. -/
def checkBrackets (source : String) : Bool × List String :=
  checkBracketsLoop source.toList 0

/-- Running bracket counter of a character list: incremented on `[`,
decremented on `]`, unchanged otherwise (specification-side companion used to
state the validator's correctness). -/
def balAcc : List Char → Int
  | [] => 0
  | c :: l => (if c = '[' then 1 else if c = ']' then -1 else 0) + balAcc l

/-- Identifier of an LLVM basic block created by the compiler: the `entry`
block of `main`, or one of the three blocks `loop_header_<ip>`,
`loop_body_<ip>`, `loop_end_<ip>` created by `handleLoopStart` for the `[` at
source offset `ip`. -/
inductive BlockId : Type
  | entry : BlockId
  | header : Nat → BlockId
  | body : Nat → BlockId
  | exit : Nat → BlockId
deriving DecidableEq, Repr

/-- Net effect of the instruction sequence a handler emits into the current
block: pointer moves are raw ±1 address arithmetic (`CreateConstGEP1_32`),
byte arithmetic is `i8` add/sub 1, output zero-extends the cell into a
`putchar` call, input stores the truncation of a `getchar` call. -/
inductive SInstr : Type
  | incPtr : SInstr
  | decPtr : SInstr
  | incByte : SInstr
  | decByte : SInstr
  | output : SInstr
  | input : SInstr
deriving DecidableEq, Repr

/-- An emitted terminator: an unconditional branch, the conditional branch of a
loop header (`CreateCondBr(cell == 0, ifZero, ifNonzero)`), or `ret 0`. -/
inductive Term : Type
  | br : BlockId → Term
  | condbr : BlockId → BlockId → Term
  | ret : Term
deriving DecidableEq, Repr

/-- Contents of one basic block: emitted effectful instructions and emitted
terminators, each in emission order (valid IR has exactly one terminator). -/
structure Block : Type where
  instrs : List SInstr
  terms : List Term
deriving DecidableEq, Repr

/-- State of the compiler during IR generation: block contents, the builder's
insertion point (`SetInsertPoint`), the two loop stacks, the statistics map and
the messages passed to `reportError`. -/
structure EmitState : Type where
  blocks : BlockId → Block
  cur : BlockId
  loopStartBlocks : List BlockId
  loopEndBlocks : List BlockId
  stats : Char → Nat
  errors : List String

/-- Replace the contents of one block. -/
def updBlocks (bs : BlockId → Block) (b : BlockId) (blk : Block) : BlockId → Block :=
  fun x => if x = b then blk else bs x

/-- Append one effectful instruction to the block at the insertion point. -/
def emitSInstr (i : SInstr) (st : EmitState) : EmitState :=
  let b := st.blocks st.cur
  let b2 := Block.mk (b.instrs ++ [i]) b.terms
  { st with blocks := updBlocks st.blocks st.cur b2 }

/-- Append one terminator to the block at the insertion point. -/
def emitTerm (t : Term) (st : EmitState) : EmitState :=
  let b := st.blocks st.cur
  let b2 := Block.mk b.instrs (b.terms ++ [t])
  { st with blocks := updBlocks st.blocks st.cur b2 }

/-- `BrainfuckCompiler::handleIncrementPtr`: load the data pointer, advance it
by one with `CreateConstGEP1_32 (+1)` (raw address arithmetic, no wrap), store
it back. -/
def handleIncrementPtr (st : EmitState) : EmitState :=
  emitSInstr .incPtr st

/-- `BrainfuckCompiler::handleDecrementPtr`: load the data pointer, move it back
by one with `CreateConstGEP1_32 (-1)` (raw address arithmetic, no wrap), store
it back. -/
def handleDecrementPtr (st : EmitState) : EmitState :=
  emitSInstr .decPtr st

/-- `BrainfuckCompiler::handleIncrementByte`: load the current cell, add 1 with
`CreateAdd(cell, 1, "val_inc", true, true)` — the two trailing `true`s are
`HasNUW`/`HasNSW`, so the emitted instruction is `add nuw nsw i8`, whose result
is poison on unsigned or signed overflow (see `i8AddOneNuwNsw`) — and store the
result back. -/
def handleIncrementByte (st : EmitState) : EmitState :=
  emitSInstr .incByte st

/-- `BrainfuckCompiler::handleDecrementByte`: load the current cell, subtract 1
with `CreateSub(cell, 1, "val_dec", true, true)` — the two trailing `true`s are
`HasNUW`/`HasNSW`, so the emitted instruction is `sub nuw nsw i8`, whose result
is poison on unsigned or signed overflow (see `i8SubOneNuwNsw`) — and store the
result back. -/
def handleDecrementByte (st : EmitState) : EmitState :=
  emitSInstr .decByte st

/-- `BrainfuckCompiler::handleOutput`: load the current cell, zero-extend it to
`i32`, call `putchar`. -/
def handleOutput (st : EmitState) : EmitState :=
  emitSInstr .output st

/-- `BrainfuckCompiler::handleInput`: call `getchar`, truncate the result to
`i8`, store it to the current cell (no end-of-input check). -/
def handleInput (st : EmitState) : EmitState :=
  emitSInstr .input st

/-- Effect of the three `BasicBlock::Create` calls of `handleLoopStart`: the
blocks named `loop_header_ip`, `loop_body_ip`, `loop_end_ip` come into
existence fresh (empty). -/
def resetLoopBlocks (ip : Nat) (bs : BlockId → Block) : BlockId → Block :=
  updBlocks (updBlocks (updBlocks bs
    (.header ip) ⟨[], []⟩) (.body ip) ⟨[], []⟩) (.exit ip) ⟨[], []⟩

/-- `BrainfuckCompiler::handleLoopStart` for the `[` at offset `ip`: create the
three fresh blocks `loop_header_ip`, `loop_body_ip`, `loop_end_ip`; branch from
the current block to the header; in the header, load the current cell, compare
it with 0 and emit `CondBr(cell == 0, loop_end, loop_body)`; move the insertion
point to the body; push the header and end blocks on the two loop stacks. -/
def handleLoopStart (ip : Nat) (st : EmitState) : EmitState :=
  let st1 := { st with blocks := resetLoopBlocks ip st.blocks }
  let st2 := emitTerm (.br (.header ip)) st1
  let st3 := { st2 with cur := .header ip }
  let st4 := emitTerm (.condbr (.exit ip) (.body ip)) st3
  { st4 with
      cur := .body ip
      loopStartBlocks := .header ip :: st4.loopStartBlocks
      loopEndBlocks := .exit ip :: st4.loopEndBlocks }

/-- Message reported by `handleLoopEnd` when the loop stacks are empty; unlike
`checkBrackets`, this defensive message does include the offset. -/
def loopEndErrMsg (ip : Nat) : String :=
  "语法错误: 多余的右括号 ']' 在位置 " ++ toString ip

/-- `BrainfuckCompiler::handleLoopEnd` for the `]` at offset `ip`: if the loop
stacks are empty, report an error and return with the state otherwise
unchanged (translation continues); otherwise pop the header and end blocks,
branch from the current block back to the header, and move the insertion point
to the end block. -/
def handleLoopEnd (ip : Nat) (st : EmitState) : EmitState :=
  match st.loopStartBlocks, st.loopEndBlocks with
  | h :: hs, e :: es =>
    let st1 := { st with loopStartBlocks := hs, loopEndBlocks := es }
    let st2 := emitTerm (.br h) st1
    { st2 with cur := e }
  | _, _ =>
    { st with errors := st.errors ++ [loopEndErrMsg ip] }

/-- Increment the statistics count of one character (`m_statistics[c]++`). -/
def bumpStat (f : Char → Nat) (c : Char) : Char → Nat :=
  fun d => if d = c then f d + 1 else f d

/-- One iteration of the loop of `generateIR` at source offset `i` holding
character `c`: skip non-instruction characters; otherwise count the character
and dispatch to the handler. -/
def genStep (i : Nat) (c : Char) (st : EmitState) : EmitState :=
  if isInstr c then
    let st1 := { st with stats := bumpStat st.stats c }
    match c with
    | '>' => handleIncrementPtr st1
    | '<' => handleDecrementPtr st1
    | '+' => handleIncrementByte st1
    | '-' => handleDecrementByte st1
    | '.' => handleOutput st1
    | ',' => handleInput st1
    | '[' => handleLoopStart i st1
    | ']' => handleLoopEnd i st1
    | _ => st1
  else st

/-- The character loop of `generateIR`, carrying the running source offset. -/
def genLoop : List Char → Nat → EmitState → EmitState
  | [], _, st => st
  | c :: rest, i, st => genLoop rest (i + 1) (genStep i c st)

/-- `BrainfuckCompiler::generateIR`: process every character of the source in
order, then emit `ret 0` at the final insertion point. -/
def generateIR (source : String) (st : EmitState) : EmitState :=
  emitTerm .ret (genLoop source.toList 0 st)

/-- Compiler state right after `createMainFunction`: only the empty `entry`
block exists and it is the insertion point; the loop stacks of a freshly
constructed `BrainfuckCompiler` are empty. -/
def initEmitState : EmitState :=
  { blocks := fun _ => ⟨[], []⟩
    cur := .entry
    loopStartBlocks := []
    loopEndBlocks := []
    stats := fun _ => 0
    errors := [] }

/-- Stages of `BrainfuckCompiler::compile`, in source order.  Stages after IR
generation (verification, optimization, object emission / JIT) belong to the
external backend and are recorded as opaque pipeline phases. -/
inductive Phase : Type
  | validate : Phase
  | createMain : Phase
  | allocMem : Phase
  | setupRuntime : Phase
  | genIR : Phase
  | verify : Phase
  | backend : Phase
deriving DecidableEq, Repr

/-- Phase trace of a successful run of `compile`. -/
def fullPipeline : List Phase :=
  [.validate, .createMain, .allocMem, .setupRuntime, .genIR, .verify, .backend]

/-- `BrainfuckCompiler::compile`: run `checkBrackets` first and return `false`
touching nothing else if it fails; otherwise clear the statistics
(`m_statistics.clear()`, discarding any counts left over in the compiler
object, modelled by the `priorStats` argument), create the main function,
allocate memory, set up the runtime declarations, and generate the IR.  The
result records the success flag, the final emission state (`none` when
translation never began) and the pipeline phases that ran, in order. -/
def compile (priorStats : Char → Nat) (source : String) :
    Bool × Option EmitState × List Phase :=
  if (checkBrackets source).1 then
    let st0 := { initEmitState with stats := fun _ => 0 }
    let st1 := generateIR source st0
    (true, some st1, fullPipeline)
  else
    (false, none, [.validate])

/-- Runtime state of the emitted program: the data cursor as an integer index
into the byte array (raw pointer arithmetic can take it outside `[0, N)`), the
cell contents, the remaining input bytes and the bytes passed to `putchar` so
far. -/
structure Machine : Type where
  cursor : Int
  mem : Int → Nat
  input : List Nat
  output : List Nat

/-- Runtime state set up by `allocateMemory` for memory size `N`: the array is
zero-filled with `memset` and the data pointer starts at `&memory[N / 2]`. -/
def initMachine (N : Nat) (inp : List Nat) : Machine :=
  { cursor := (N / 2 : Nat)
    mem := fun _ => 0
    input := inp
    output := [] }

/-- Store a value into the current cell. -/
def writeCell (m : Machine) (v : Nat) : Machine :=
  { m with mem := fun i => if i = m.cursor then v else m.mem i }

/-- Execute one emitted instruction.  The `.incByte`/`.decByte` cases assign
the two's-complement modulo-256 result; the emitted `add nuw nsw i8` /
`sub nuw nsw i8` compute exactly this value whenever they do not overflow, but
on overflow their result is poison, not the wrap — the flag semantics at the
boundary is modeled separately by `i8AddOneNuwNsw` / `i8SubOneNuwNsw`, and this
executor covers the overflow-free executions.  The pointer moves are unwrapped
integer steps; `getchar` yields the next input byte, or the sentinel −1 once
the input is exhausted, and the emitted `trunc` keeps its low 8 bits (so the
sentinel stores 255). -/
def execSInstr : SInstr → Machine → Machine
  | .incPtr, m => { m with cursor := m.cursor + 1 }
  | .decPtr, m => { m with cursor := m.cursor - 1 }
  | .incByte, m => writeCell m ((m.mem m.cursor + 1) % 256)
  | .decByte, m => writeCell m ((m.mem m.cursor + 255) % 256)
  | .output, m => { m with output := m.output ++ [m.mem m.cursor] }
  | .input, m =>
    match m.input with
    | [] => writeCell m (((-1 : Int) % 256).toNat)
    | b :: rest => { writeCell m (b % 256) with input := rest }

/-- Signed (two's-complement) reading of an `i8` value given by its unsigned
bits `v` (`0 ≤ v < 256`). -/
def toSigned (v : Nat) : Int :=
  if v < 128 then (v : Int) else (v : Int) - 256

/-- Result of the emitted `add nuw nsw i8` of `handleIncrementByte` on a cell
whose unsigned value is `v`: `CreateAdd(cell, 1, "val_inc", true, true)` sets
`HasNUW` and `HasNSW`, so the result is poison (`none`) when the unsigned sum
exceeds 255 or the signed sum exceeds 127, and `v + 1` otherwise. -/
def i8AddOneNuwNsw (v : Nat) : Option Nat :=
  if 255 < v + 1 then none
  else if 127 < toSigned v + 1 then none
  else some (v + 1)

/-- Result of the emitted `sub nuw nsw i8` of `handleDecrementByte` on a cell
whose unsigned value is `v`: `CreateSub(cell, 1, "val_dec", true, true)` sets
`HasNUW` and `HasNSW`, so the result is poison (`none`) when the unsigned
difference would be negative or the signed difference falls below −128, and
`v - 1` otherwise. -/
def i8SubOneNuwNsw (v : Nat) : Option Nat :=
  if v = 0 then none
  else if toSigned v - 1 < -128 then none
  else some (v - 1)

/-- Run the instruction list of one block. -/
def runBlockInstrs (b : Block) (m : Machine) : Machine :=
  b.instrs.foldl (fun m i => execSInstr i m) m

/-- Execute one basic block: run its instructions, then follow its first
terminator.  `inl` is a transfer to the next block, `inr` a halt (a `ret`, or a
block with no terminator). -/
def execBlock (prog : BlockId → Block) (blk : BlockId) (m : Machine) :
    (BlockId × Machine) ⊕ Machine :=
  let m1 := runBlockInstrs (prog blk) m
  match (prog blk).terms.head? with
  | some (.br t) => .inl (t, m1)
  | some (.condbr z nz) =>
    if m1.mem m1.cursor = 0 then .inl (z, m1) else .inl (nz, m1)
  | some .ret => .inr m1
  | none => .inr m1

/-- Fuelled execution of the emitted control-flow graph, returning the final
machine when the program halts within the fuel bound. -/
def run (prog : BlockId → Block) : Nat → BlockId → Machine → Option Machine
  | 0, _, _ => none
  | fuel + 1, blk, m =>
    match execBlock prog blk m with
    | .inl (blk2, m2) => run prog fuel blk2 m2
    | .inr m2 => some m2

/-- Cursor update demanded by the specification: advance by `delta` modulo the
memory size `N` (the code emits no such wrap; this definition follows the
specification's words, for comparison). -/
def specAdvance (N : Nat) (delta : Int) (cur : Int) : Int :=
  (cur + delta) % (N : Int)

/-- The control-flow graph emitted for a source string, starting from the
state right after `createMainFunction`. -/
def emitted (source : String) : BlockId → Block :=
  (generateIR source initEmitState).blocks

/-- A machine whose every cell holds `v`, with the cursor at index 0
(convenient concrete test state). -/
def cellMachine (v : Nat) : Machine :=
  { cursor := 0, mem := fun _ => v, input := [], output := [] }

/-- The running bracket counter stays nonnegative on every initial segment. -/
def balNeverNeg (l : List Char) : Prop :=
  ∀ k, k ≤ l.length → 0 ≤ balAcc (l.take k)

/-- The running bracket counter goes negative somewhere. -/
def balGoesNeg (l : List Char) : Prop :=
  ∃ k, k ≤ l.length ∧ balAcc (l.take k) < 0

theorem updBlocks_apply (bs : BlockId → Block) (b : BlockId) (blk : Block)
    (x : BlockId) : updBlocks bs b blk x = if x = b then blk else bs x := rfl

theorem blocks_emitSInstr_cur (i : SInstr) (st : EmitState) :
    (emitSInstr i st).blocks st.cur =
      Block.mk ((st.blocks st.cur).instrs ++ [i]) (st.blocks st.cur).terms := by
  simp [emitSInstr, updBlocks]

theorem blocks_emitTerm_cur (t : Term) (st : EmitState) :
    (emitTerm t st).blocks st.cur =
      Block.mk (st.blocks st.cur).instrs ((st.blocks st.cur).terms ++ [t]) := by
  simp [emitTerm, updBlocks]

/-- C2: the claim fails on the code at exactly the boundary it names.
`handleIncrementByte` emits `CreateAdd(cell, 1, "val_inc", true, true)` and
`handleDecrementByte` emits `CreateSub(cell, 1, "val_dec", true, true)`; the
two trailing `true`s are `HasNUW`/`HasNSW`, so the emitted instructions are
`add nuw nsw i8` and `sub nuw nsw i8`, whose result on overflow is poison.
Incrementing a cell holding 255 is therefore poison, not the `(255 + 1) % 256
= 0` the claim states, and decrementing a cell holding 0 is poison, not 255
(the `nsw` flag additionally poisons `127 + 1` and `128 − 1`, both of which
mod-256 arithmetic would define).  Away from these overflow cases the emitted
add/sub agree with the claim's mod-256 arithmetic, as the last two conjuncts
record. -/
theorem C2_nuw_nsw_poison :
    i8AddOneNuwNsw 255 = none
    ∧ i8SubOneNuwNsw 0 = none
    ∧ i8AddOneNuwNsw 255 ≠ some ((255 + 1) % 256)
    ∧ i8SubOneNuwNsw 0 ≠ some ((0 + 255) % 256)
    ∧ i8AddOneNuwNsw 127 = none
    ∧ i8SubOneNuwNsw 128 = none
    ∧ (∀ v : Nat, v < 256 → v ≠ 255 → v ≠ 127 →
        i8AddOneNuwNsw v = some ((v + 1) % 256))
    ∧ (∀ v : Nat, v < 256 → v ≠ 0 → v ≠ 128 →
        i8SubOneNuwNsw v = some ((v + 255) % 256)) := by
  refine ⟨by decide, by decide, by decide, by decide, by decide, by decide, ?_, ?_⟩
  · intro v h1 h2 h3
    have hns : ¬ 127 < toSigned v + 1 := by
      simp only [toSigned]
      split <;> omega
    rw [i8AddOneNuwNsw, if_neg (by omega), if_neg hns]
    congr 1
    omega
  · intro v h1 h2 h3
    have hns : ¬ toSigned v - 1 < -128 := by
      simp only [toSigned]
      split <;> omega
    rw [i8SubOneNuwNsw, if_neg h2, if_neg hns]
    congr 1
    omega

/-- C10: the `,` handler emits exactly one `getchar`/`trunc`/`store` into the
current block, with no end-of-input check; executing it with a pending input
byte `b` stores `b % 256` into the current cell and consumes the byte, while
executing it on an exhausted input stream stores the low 8 bits of the sentinel
−1, i.e. 255 — so end-of-input leaves the same cell value as reading a data
byte 255. -/
theorem C10_input_truncation (cur : Int) (mem0 : Int → Nat)
    (out : List Nat) (b : Nat) (rest : List Nat) :
    (∀ st : EmitState,
      (handleInput st).blocks st.cur =
        Block.mk ((st.blocks st.cur).instrs ++ [.input]) (st.blocks st.cur).terms)
    ∧ (execSInstr .input (Machine.mk cur mem0 [] out)).mem cur = 255
    ∧ (execSInstr .input (Machine.mk cur mem0 [] out)).cursor = cur
    ∧ (execSInstr .input (Machine.mk cur mem0 [] out)).input = []
    ∧ (execSInstr .input (Machine.mk cur mem0 (b :: rest) out)).mem cur = b % 256
    ∧ (execSInstr .input (Machine.mk cur mem0 (b :: rest) out)).input = rest
    ∧ (execSInstr .input (Machine.mk cur mem0 [] out)).mem cur =
        (execSInstr .input (Machine.mk cur mem0 (255 :: rest) out)).mem cur := by
  refine ⟨fun st => blocks_emitSInstr_cur .input st, ?_, ?_, ?_, ?_, ?_, ?_⟩
  · simp [execSInstr, writeCell]
  · simp [execSInstr, writeCell]
  · simp [execSInstr, writeCell]
  · simp [execSInstr, writeCell]
  · simp [execSInstr, writeCell]
  · simp [execSInstr, writeCell]

/-- C8: for every memory size `N`, `allocateMemory` zero-fills the `N`-byte
array and starts the data pointer at index `N / 2` (integer division), and in
the `compile` pipeline the memory-allocation phase runs before the
IR-generation phase (so the machine model is set up before the first
instruction is translated). -/
theorem C8_memory_init (N : Nat) (inp : List Nat) (priorStats : Char → Nat)
    (src : String) :
    (initMachine N inp).cursor = ((N / 2 : Nat) : Int)
    ∧ (∀ i : Int, (initMachine N inp).mem i = 0)
    ∧ ((compile priorStats src).2.2 = fullPipeline
        ∨ (compile priorStats src).2.2 = [.validate])
    ∧ fullPipeline.indexOf Phase.allocMem < fullPipeline.indexOf Phase.genIR
    ∧ Phase.genIR ∉ [Phase.validate] := by
  refine ⟨rfl, fun i => rfl, ?_, by decide, by decide⟩
  by_cases h : (checkBrackets src).1
  · left
    simp [compile, h]
  · right
    simp [compile, h]

/-- C5: `compile` runs the bracket check first; when it fails, `compile`
returns `false` with no module and only the validation phase in its trace (no
code-generation phase ever ran, and no main function, memory allocation or IR
emission took place on that source); the IR-generation phase appears in the
trace only on sources that passed validation, and then only after the
validation phase. -/
theorem C5_validate_first (priorStats : Char → Nat) (src : String) :
    ((checkBrackets src).1 = false →
      compile priorStats src = (false, none, [Phase.validate]))
    ∧ ((compile priorStats src).2.2.head? = some Phase.validate)
    ∧ (Phase.genIR ∈ (compile priorStats src).2.2 →
        (checkBrackets src).1 = true
        ∧ (compile priorStats src).2.2 = fullPipeline
        ∧ fullPipeline.indexOf Phase.validate < fullPipeline.indexOf Phase.genIR) := by
  by_cases h : (checkBrackets src).1
  · refine ⟨?_, ?_, ?_⟩
    · intro hf
      rw [h] at hf
      cases hf
    · simp [compile, h, fullPipeline]
    · intro _
      exact ⟨h, by simp [compile, h], by decide⟩
  · refine ⟨?_, ?_, ?_⟩
    · intro _
      simp [compile, h]
    · simp [compile, h]
    · intro hmem
      simp [compile, h] at hmem

/-- C5 witness: instantiations at a rejected source (`"]"`) and an accepted
source (`"+"`), discharging the hypotheses of both implications. -/
theorem C5_validate_first_witness :
    compile (fun _ => 0) "]" = (false, none, [Phase.validate])
    ∧ ((checkBrackets "+").1 = true
        ∧ (compile (fun _ => 0) "+").2.2 = fullPipeline
        ∧ fullPipeline.indexOf Phase.validate < fullPipeline.indexOf Phase.genIR) := by
  constructor
  · exact (C5_validate_first (fun _ => 0) "]").1 (by decide)
  · exact (C5_validate_first (fun _ => 0) "+").2.2 (by decide)

/-- C9: translation is deterministic and independent of any statistics counts
left in the compiler object from before (`compile` clears them): two runs of
`compile` on the same source from arbitrary prior statistics states return the
same result; in particular the two emitted programs produce the same output on
the same input stream and the two runs record identical statistics. -/
theorem C9_deterministic (stats1 stats2 : Char → Nat) (src : String)
    (N fuel : Nat) (inp : List Nat) :
    compile stats1 src = compile stats2 src
    ∧ ((compile stats1 src).2.1.map fun st =>
        (run st.blocks fuel .entry (initMachine N inp)).map Machine.output) =
      ((compile stats2 src).2.1.map fun st =>
        (run st.blocks fuel .entry (initMachine N inp)).map Machine.output)
    ∧ ((compile stats1 src).2.1.map EmitState.stats) =
      ((compile stats2 src).2.1.map EmitState.stats) :=
  ⟨rfl, rfl, rfl⟩

/-- C1: the emitted cursor moves do not wrap modulo the memory size.  With
memory size `N = 2` the cursor starts at index `N / 2 = 1 = N − 1`; the program
`">"` leaves it at 2, outside `[0, N)`, where the specification demands
`(1 + 1) % 2 = 0`.  With `N = 1` the cursor starts at index 0 and the program
`"<"` leaves it at −1, again outside the array, where the specification
demands index `N − 1 = 0`.  The emitted fragments are raw ±1 pointer
arithmetic with no modulo. -/
theorem C1_cursor_no_wrap :
    emitted ">" .entry = Block.mk [.incPtr] [.ret]
    ∧ emitted "<" .entry = Block.mk [.decPtr] [.ret]
    ∧ (initMachine 2 []).cursor = 1
    ∧ ((run (emitted ">") 1 .entry (initMachine 2 [])).map Machine.cursor = some 2)
    ∧ specAdvance 2 1 1 = 0
    ∧ ((run (emitted ">") 1 .entry (initMachine 2 [])).map Machine.cursor
        ≠ some (specAdvance 2 1 1))
    ∧ (initMachine 1 []).cursor = 0
    ∧ ((run (emitted "<") 1 .entry (initMachine 1 [])).map Machine.cursor = some (-1))
    ∧ specAdvance 1 (-1) 0 = 0
    ∧ ((run (emitted "<") 1 .entry (initMachine 1 [])).map Machine.cursor
        ≠ some (specAdvance 1 (-1) 0)) := by
  refine ⟨by decide, by decide, by decide, by decide, by decide, by decide,
    by decide, by decide, by decide, by decide⟩

theorem stats_emitSInstr (i : SInstr) (st : EmitState) :
    (emitSInstr i st).stats = st.stats := rfl

theorem stats_emitTerm (t : Term) (st : EmitState) :
    (emitTerm t st).stats = st.stats := rfl

theorem stats_handleLoopStart (ip : Nat) (st : EmitState) :
    (handleLoopStart ip st).stats = st.stats := rfl

theorem stats_handleLoopEnd (ip : Nat) (st : EmitState) :
    (handleLoopEnd ip st).stats = st.stats := by
  cases hls : st.loopStartBlocks <;> cases hle : st.loopEndBlocks <;>
    simp [handleLoopEnd, hls, hle, emitTerm]

theorem stats_genStep (i : Nat) (c : Char) (st : EmitState) :
    (genStep i c st).stats = if isInstr c then bumpStat st.stats c else st.stats := by
  by_cases hc : isInstr c
  · simp only [genStep, hc, if_pos]
    split <;>
      simp [handleIncrementPtr, handleDecrementPtr, handleIncrementByte,
        handleDecrementByte, handleOutput, handleInput, stats_emitSInstr,
        stats_handleLoopStart, stats_handleLoopEnd]
  · simp [genStep, hc]

theorem stats_genLoop (l : List Char) :
    ∀ (k : Nat) (st : EmitState) (c : Char),
      (genLoop l k st).stats c =
        st.stats c + (l.filter fun x => isInstr x).count c := by
  induction l with
  | nil => intro k st c; simp [genLoop]
  | cons a rest ih =>
    intro k st c
    simp only [genLoop]
    rw [ih, stats_genStep]
    by_cases ha : isInstr a
    · by_cases hca : c = a
      · subst hca
        simp [ha, bumpStat, List.count_cons]
        omega
      · have hne : (c == a) = false := by simp [hca]
        simp [ha, bumpStat, hca, List.count_cons, hne]
    · simp [ha]

theorem stats_generateIR (src : String) (st : EmitState) (c : Char) :
    (generateIR src st).stats c =
      st.stats c + (src.toList.filter fun x => isInstr x).count c := by
  unfold generateIR
  rw [stats_emitTerm, stats_genLoop]

theorem count_filter_isInstr (l : List Char) (c : Char) :
    (l.filter fun x => isInstr x).count c = if isInstr c then l.count c else 0 := by
  by_cases hc : isInstr c
  · simp only [hc, if_pos]
    induction l with
    | nil => simp
    | cons a rest ih =>
      by_cases hca : c = a
      · subst hca
        simp [hc, List.count_cons, ih]
      · have hne : (c == a) = false := by simp [hca]
        by_cases ha : isInstr a
        · simp [ha, List.count_cons, hne, ih]
        · simp [ha, List.count_cons, hne, ih]
          exact fun h => hca h.symm
  · simp only [Bool.not_eq_true] at hc
    simp only [hc, Bool.false_eq_true, if_false]
    rw [List.count_eq_zero]
    intro hmem
    have := List.of_mem_filter hmem
    rw [hc] at this
    cases this

theorem sum_count_instr (m : List Char) (hm : ∀ x ∈ m, isInstr x = true) :
    (instrChars.map fun c => m.count c).sum = m.length := by
  induction m with
  | nil => simp [instrChars]
  | cons x rest ih =>
    have hx : isInstr x = true := hm x (List.mem_cons_self x rest)
    have hrest : ∀ y ∈ rest, isInstr y = true :=
      fun y hy => hm y (List.mem_cons_of_mem x hy)
    have hih := ih hrest
    have hsplit : x = '>' ∨ x = '<' ∨ x = '+' ∨ x = '-' ∨ x = '.' ∨ x = ',' ∨
        x = '[' ∨ x = ']' := by
      simpa [isInstr, or_assoc] using hx
    simp only [instrChars, List.map_cons, List.map_nil, List.sum_cons,
      List.sum_nil] at hih ⊢
    rcases hsplit with h | h | h | h | h | h | h | h <;> subst h <;>
      simp [List.count_cons] <;> omega

/-- C7: after translation, the statistics map records, for each of the eight
instruction characters, exactly its number of occurrences in the source; every
other character has count 0 (it is silently skipped, not counted); and the sum
of all recorded counts equals the number of instruction characters in the
source. -/
theorem C7_statistics (src : String) :
    (∀ c, (generateIR src initEmitState).stats c =
        if isInstr c then src.toList.count c else 0)
    ∧ (instrChars.map fun c => (generateIR src initEmitState).stats c).sum =
        (src.toList.filter fun x => isInstr x).length := by
  have hstats : ∀ c, (generateIR src initEmitState).stats c =
      (src.toList.filter fun x => isInstr x).count c := by
    intro c
    rw [stats_generateIR]
    simp [initEmitState]
  constructor
  · intro c
    rw [hstats c, count_filter_isInstr]
  · have hmap : (instrChars.map fun c => (generateIR src initEmitState).stats c) =
        (instrChars.map fun c => (src.toList.filter fun x => isInstr x).count c) := by
      simp only [hstats]
    rw [hmap]
    exact sum_count_instr _ (fun x hx => List.of_mem_filter hx)

theorem checkBracketsLoop_ok (l : List Char) :
    ∀ n : Int, (∀ k, 0 ≤ n + balAcc (l.take k)) → n + balAcc l = 0 →
      checkBracketsLoop l n = (true, []) := by
  induction l with
  | nil =>
    intro n _ hz
    simp [balAcc] at hz
    simp [checkBracketsLoop, hz]
  | cons c rest ih =>
    intro n h hz
    by_cases h1 : c = '['
    · subst h1
      have hstep : checkBracketsLoop ('[' :: rest) n = checkBracketsLoop rest (n + 1) := by
        simp [checkBracketsLoop]
      rw [hstep]
      apply ih
      · intro k
        have hk := h (k + 1)
        simp [List.take_succ_cons, balAcc] at hk
        omega
      · simp [balAcc] at hz
        omega
    · by_cases h2 : c = ']'
      · subst h2
        have hone := h 1
        simp [List.take_succ_cons, balAcc, h1] at hone
        have hstep : checkBracketsLoop (']' :: rest) n =
            if n - 1 < 0 then (false, [closeBracketMsg])
            else checkBracketsLoop rest (n - 1) := by
          simp [checkBracketsLoop]
        rw [hstep, if_neg (by omega)]
        apply ih
        · intro k
          have hk := h (k + 1)
          simp [List.take_succ_cons, balAcc, h1] at hk
          omega
        · simp [balAcc, h1] at hz
          omega
      · have hstep : checkBracketsLoop (c :: rest) n = checkBracketsLoop rest n := by
          simp [checkBracketsLoop, h1, h2]
        rw [hstep]
        apply ih
        · intro k
          have hk := h (k + 1)
          simp [List.take_succ_cons, balAcc, h1, h2] at hk
          omega
        · simp [balAcc, h1, h2] at hz
          omega

theorem checkBracketsLoop_neg (l : List Char) :
    ∀ n : Int, 0 ≤ n → (∃ k, n + balAcc (l.take k) < 0) →
      checkBracketsLoop l n = (false, [closeBracketMsg]) := by
  induction l with
  | nil =>
    intro n hn ⟨k, hk⟩
    simp [balAcc] at hk
    omega
  | cons c rest ih =>
    intro n hn ⟨k, hk⟩
    match k with
    | 0 =>
      simp [balAcc] at hk
      omega
    | k + 1 =>
      simp only [List.take_succ_cons] at hk
      by_cases h1 : c = '['
      · subst h1
        have hk2 : n + (1 + balAcc (rest.take k)) < 0 := by
          simpa [balAcc] using hk
        have hstep : checkBracketsLoop ('[' :: rest) n = checkBracketsLoop rest (n + 1) := by
          simp [checkBracketsLoop]
        rw [hstep]
        exact ih (n + 1) (by omega) ⟨k, by omega⟩
      · by_cases h2 : c = ']'
        · subst h2
          have hk2 : n + (-1 + balAcc (rest.take k)) < 0 := by
            simpa [balAcc] using hk
          have hstep : checkBracketsLoop (']' :: rest) n =
              if n - 1 < 0 then (false, [closeBracketMsg])
              else checkBracketsLoop rest (n - 1) := by
            simp [checkBracketsLoop]
          rw [hstep]
          by_cases hneg : n - 1 < 0
          · rw [if_pos hneg]
          · rw [if_neg hneg]
            exact ih (n - 1) (by omega) ⟨k, by omega⟩
        · have hk2 : n + balAcc (rest.take k) < 0 := by
            simpa [balAcc, h1, h2] using hk
          have hstep : checkBracketsLoop (c :: rest) n = checkBracketsLoop rest n := by
            simp [checkBracketsLoop, h1, h2]
          rw [hstep]
          exact ih n hn ⟨k, by omega⟩

theorem checkBracketsLoop_open (l : List Char) :
    ∀ n : Int, (∀ k, 0 ≤ n + balAcc (l.take k)) → n + balAcc l ≠ 0 →
      checkBracketsLoop l n = (false, [openBracketMsg]) := by
  induction l with
  | nil =>
    intro n h hz
    simp [balAcc] at hz
    simp [checkBracketsLoop, hz]
  | cons c rest ih =>
    intro n h hz
    by_cases h1 : c = '['
    · subst h1
      have hstep : checkBracketsLoop ('[' :: rest) n = checkBracketsLoop rest (n + 1) := by
        simp [checkBracketsLoop]
      rw [hstep]
      apply ih
      · intro k
        have hk := h (k + 1)
        simp [List.take_succ_cons, balAcc] at hk
        omega
      · simp [balAcc] at hz
        omega
    · by_cases h2 : c = ']'
      · subst h2
        have hone := h 1
        simp [List.take_succ_cons, balAcc, h1] at hone
        have hstep : checkBracketsLoop (']' :: rest) n =
            if n - 1 < 0 then (false, [closeBracketMsg])
            else checkBracketsLoop rest (n - 1) := by
          simp [checkBracketsLoop]
        rw [hstep, if_neg (by omega)]
        apply ih
        · intro k
          have hk := h (k + 1)
          simp [List.take_succ_cons, balAcc, h1] at hk
          omega
        · simp [balAcc, h1] at hz
          omega
      · have hstep : checkBracketsLoop (c :: rest) n = checkBracketsLoop rest n := by
          simp [checkBracketsLoop, h1, h2]
        rw [hstep]
        apply ih
        · intro k
          have hk := h (k + 1)
          simp [List.take_succ_cons, balAcc, h1, h2] at hk
          omega
        · simp [balAcc, h1, h2] at hz
          omega

theorem balNeverNeg_all (l : List Char) (h : balNeverNeg l) :
    ∀ k, 0 ≤ balAcc (l.take k) := by
  intro k
  by_cases hk : k ≤ l.length
  · exact h k hk
  · rw [List.take_of_length_le (by omega)]
    have := h l.length (le_refl _)
    rwa [List.take_length] at this

/-- C3 counterexample: the validator's unmatched-`]` error is one fixed
message that never contains the offending offset.  The sources `"]"` and
`"+]"` have their offending `]` at offsets 0 and 1 respectively, yet
`checkBrackets` returns exactly the same error output for both, so the error
cannot be carrying the exact offset of the offending `]`. -/
theorem C3_counterexample :
    checkBrackets "]" = checkBrackets "+]"
    ∧ checkBrackets "]" = (false, [closeBracketMsg])
    ∧ "]".toList.get? 0 = some ']'
    ∧ "+]".toList.get? 1 = some ']'
    ∧ "+]".toList.get? 0 = some '+' := by
  refine ⟨by decide, by decide, by decide, by decide, by decide⟩

/-- C3 (amended): the validator accepts exactly the sources whose running
bracket counter never goes negative and ends at zero; a source whose counter
goes negative at some point is rejected with the fixed unmatched-`]` message
(carrying no offset); a source whose counter stays nonnegative but ends
nonzero is rejected with the fixed unmatched-`[` message. -/
theorem C3_validator (src : String) :
    (balNeverNeg src.toList → balAcc src.toList = 0 →
      checkBrackets src = (true, []))
    ∧ ((∃ k, k ≤ src.toList.length ∧ balAcc (src.toList.take k) < 0) →
      checkBrackets src = (false, [closeBracketMsg]))
    ∧ (balNeverNeg src.toList → balAcc src.toList ≠ 0 →
      checkBrackets src = (false, [openBracketMsg])) := by
  refine ⟨?_, ?_, ?_⟩
  · intro h hz
    apply checkBracketsLoop_ok
    · intro k
      have := balNeverNeg_all src.toList h k
      omega
    · omega
  · intro ⟨k, _, hk⟩
    apply checkBracketsLoop_neg src.toList 0 (le_refl 0)
    exact ⟨k, by omega⟩
  · intro h hz
    apply checkBracketsLoop_open
    · intro k
      have := balNeverNeg_all src.toList h k
      omega
    · omega

/-- C3 witness: instantiations at `"[]"` (accepted), `"]"` (negative counter at
offset 1) and `"["` (final counter 1), discharging the hypotheses of all three
implications. -/
theorem C3_validator_witness :
    checkBrackets "[]" = (true, [])
    ∧ checkBrackets "]" = (false, [closeBracketMsg])
    ∧ checkBrackets "[" = (false, [openBracketMsg]) := by
  refine ⟨?_, ?_, ?_⟩
  · refine (C3_validator "[]").1 ?_ (by decide)
    intro k hk
    match k with
    | 0 => decide
    | 1 => decide
    | 2 => decide
  · exact (C3_validator "]").2.1 ⟨1, by decide, by decide⟩
  · refine (C3_validator "[").2.2 ?_ (by decide)
    intro k hk
    match k with
    | 0 => decide
    | 1 => decide

/-- C6 counterexample: translation does not abort when `]` is processed with an
empty loop stack.  Running `generateIR` on `"]+"` reports the defensive error
for the `]` at offset 0, yet translation continues: the subsequent `+` is still
counted and its increment is still emitted into the entry block (and no
internal-error result exists — `generateIR` returns normally). -/
theorem C6_counterexample :
    (generateIR "]+" initEmitState).errors = [loopEndErrMsg 0]
    ∧ (generateIR "]+" initEmitState).blocks .entry = Block.mk [.incByte] [.ret]
    ∧ (generateIR "]+" initEmitState).stats '+' = 1 := by
  refine ⟨by decide, by decide, by decide⟩

/-- C6 (amended): if a `]` is processed while either loop stack is empty,
`handleLoopEnd` reports an error naming the offset and returns with the state
otherwise unchanged — the `]` emits nothing and translation continues with the
remainder of the source.  This situation is unreachable through `compile`: any
source whose running bracket counter goes negative fails the bracket check, so
`compile` returns `false` with no module and translation never begins. -/
theorem C6_loop_end_underflow :
    (∀ (ip : Nat) (st : EmitState),
      st.loopStartBlocks = [] ∨ st.loopEndBlocks = [] →
      handleLoopEnd ip st = { st with errors := st.errors ++ [loopEndErrMsg ip] })
    ∧ (∀ (priorStats : Char → Nat) (src : String),
      (∃ k, k ≤ src.toList.length ∧ balAcc (src.toList.take k) < 0) →
      compile priorStats src = (false, none, [Phase.validate])) := by
  constructor
  · intro ip st hempty
    cases hls : st.loopStartBlocks with
    | nil => simp [handleLoopEnd, hls]
    | cons h hs =>
      cases hle : st.loopEndBlocks with
      | nil => simp [handleLoopEnd, hls, hle]
      | cons e es =>
        rcases hempty with hx | hx
        · rw [hls] at hx; cases hx
        · rw [hle] at hx; cases hx
  · intro priorStats src ⟨k, _, hk⟩
    have hfail : checkBrackets src = (false, [closeBracketMsg]) :=
      checkBracketsLoop_neg src.toList 0 (le_refl 0) ⟨k, by omega⟩
    have hfalse : (checkBrackets src).1 = false := by rw [hfail]
    simp [compile, hfalse]

/-- C6 witness: instantiations at a state with empty stacks and at the source
`"]"`, discharging the hypotheses of both implications. -/
theorem C6_loop_end_underflow_witness :
    handleLoopEnd 3 initEmitState =
      { initEmitState with errors := initEmitState.errors ++ [loopEndErrMsg 3] }
    ∧ compile (fun _ => 0) "]" = (false, none, [Phase.validate]) := by
  constructor
  · exact C6_loop_end_underflow.1 3 initEmitState (Or.inl rfl)
  · exact C6_loop_end_underflow.2 (fun _ => 0) "]" ⟨1, by decide, by decide⟩

/-- The insertion point is never one of the loop header blocks (the builder
only ever rests in `entry`, a body block or an exit block; it passes through a
header only inside `handleLoopStart`). -/
def curNotHeader (st : EmitState) : Prop :=
  ∀ j, st.cur ≠ BlockId.header j

/-- Shape of the two loop stacks: `m_loopStartBlocks` holds only header blocks
and `m_loopEndBlocks` only exit blocks. -/
def stacksShape (st : EmitState) : Prop :=
  (∀ b ∈ st.loopStartBlocks, ∃ j, b = BlockId.header j)
  ∧ (∀ b ∈ st.loopEndBlocks, ∃ j, b = BlockId.exit j)

/-- The terminator `t` transfers control to the block `loop_body_ip`. -/
def targetsBody : Term → Nat → Prop
  | .br tgt, ip => tgt = BlockId.body ip
  | .condbr z nz, ip => z = BlockId.body ip ∨ nz = BlockId.body ip
  | .ret, _ => False

/-- Every emitted edge into a body block is the nonzero branch of the
canonical conditional in that loop's own header block. -/
def bodyEdgesOk (st : EmitState) : Prop :=
  ∀ (b : BlockId) (ip : Nat) (t : Term), t ∈ (st.blocks b).terms →
    targetsBody t ip →
    b = BlockId.header ip ∧ t = Term.condbr (BlockId.exit ip) (BlockId.body ip)

/-- Emission invariant maintained by `generateIR`. -/
def EmitInv (st : EmitState) : Prop :=
  curNotHeader st ∧ stacksShape st ∧ bodyEdgesOk st

theorem resetLoopBlocks_cases (ip : Nat) (bs : BlockId → Block) (b : BlockId) :
    resetLoopBlocks ip bs b = ⟨[], []⟩ ∨ resetLoopBlocks ip bs b = bs b := by
  unfold resetLoopBlocks updBlocks
  by_cases h1 : b = BlockId.exit ip
  · simp [h1]
  · by_cases h2 : b = BlockId.body ip
    · simp [h1, h2]
    · by_cases h3 : b = BlockId.header ip
      · simp [h1, h2, h3]
      · simp [h1, h2, h3]

theorem handleLoopStart_blocks (ip : Nat) (st : EmitState) (b : BlockId)
    (hcur : st.cur ≠ BlockId.header ip) :
    (handleLoopStart ip st).blocks b =
      if b = BlockId.header ip then
        Block.mk [] [Term.condbr (BlockId.exit ip) (BlockId.body ip)]
      else if b = st.cur then
        Block.mk (resetLoopBlocks ip st.blocks st.cur).instrs
          ((resetLoopBlocks ip st.blocks st.cur).terms ++ [Term.br (BlockId.header ip)])
      else resetLoopBlocks ip st.blocks b := by
  have hne : BlockId.header ip ≠ st.cur := fun h => hcur h.symm
  by_cases h1 : b = BlockId.header ip
  · subst h1
    simp [handleLoopStart, emitTerm, updBlocks, hne, resetLoopBlocks]
  · by_cases h2 : b = st.cur
    · subst h2
      simp [handleLoopStart, emitTerm, updBlocks, h1, fun h => hcur h]
    · simp [handleLoopStart, emitTerm, updBlocks, h1, h2]

theorem handleLoopStart_cur (ip : Nat) (st : EmitState) :
    (handleLoopStart ip st).cur = BlockId.body ip := rfl

theorem handleLoopStart_stacks (ip : Nat) (st : EmitState) :
    (handleLoopStart ip st).loopStartBlocks = BlockId.header ip :: st.loopStartBlocks
    ∧ (handleLoopStart ip st).loopEndBlocks = BlockId.exit ip :: st.loopEndBlocks :=
  ⟨rfl, rfl⟩

theorem handleLoopEnd_pop (ip : Nat) (st : EmitState) (h e : BlockId)
    (hs es : List BlockId) (hls : st.loopStartBlocks = h :: hs)
    (hle : st.loopEndBlocks = e :: es) :
    (handleLoopEnd ip st).cur = e
    ∧ (handleLoopEnd ip st).loopStartBlocks = hs
    ∧ (handleLoopEnd ip st).loopEndBlocks = es
    ∧ (handleLoopEnd ip st).blocks =
        updBlocks st.blocks st.cur
          (Block.mk (st.blocks st.cur).instrs ((st.blocks st.cur).terms ++ [Term.br h]))
    ∧ (handleLoopEnd ip st).errors = st.errors := by
  refine ⟨?_, ?_, ?_, ?_, ?_⟩ <;> simp [handleLoopEnd, hls, hle, emitTerm]

theorem handleLoopEnd_underflow (ip : Nat) (st : EmitState)
    (hempty : st.loopStartBlocks = [] ∨ st.loopEndBlocks = []) :
    handleLoopEnd ip st = { st with errors := st.errors ++ [loopEndErrMsg ip] } := by
  cases hls : st.loopStartBlocks with
  | nil => simp [handleLoopEnd, hls]
  | cons h hs =>
    cases hle : st.loopEndBlocks with
    | nil => simp [handleLoopEnd, hls, hle]
    | cons e es =>
      rcases hempty with hx | hx
      · rw [hls] at hx; cases hx
      · rw [hle] at hx; cases hx

theorem inv_emitSInstr (i : SInstr) (st : EmitState) (hinv : EmitInv st) :
    EmitInv (emitSInstr i st) := by
  obtain ⟨hc, hs, hb⟩ := hinv
  refine ⟨hc, hs, ?_⟩
  intro b ip t hmem ht
  apply hb b ip t ?_ ht
  by_cases hbc : b = st.cur
  · subst hbc
    simpa [emitSInstr, updBlocks] using hmem
  · simpa [emitSInstr, updBlocks, hbc] using hmem

theorem inv_emitTerm_no_body (t0 : Term) (st : EmitState) (hinv : EmitInv st)
    (ht0 : ∀ ip, ¬ targetsBody t0 ip) : EmitInv (emitTerm t0 st) := by
  obtain ⟨hc, hs, hb⟩ := hinv
  refine ⟨hc, hs, ?_⟩
  intro b ip t hmem ht
  by_cases hbc : b = st.cur
  · subst hbc
    rw [blocks_emitTerm_cur] at hmem
    simp only [List.mem_append, List.mem_singleton] at hmem
    rcases hmem with hold | hnew
    · exact hb _ ip t hold ht
    · subst hnew
      exact absurd ht (ht0 ip)
  · rw [show (emitTerm t0 st).blocks b = st.blocks b by
        simp [emitTerm, updBlocks, hbc]] at hmem
    exact hb b ip t hmem ht

theorem inv_handleLoopStart (ip : Nat) (st : EmitState) (hinv : EmitInv st) :
    EmitInv (handleLoopStart ip st) := by
  obtain ⟨hc, hs, hb⟩ := hinv
  refine ⟨?_, ⟨?_, ?_⟩, ?_⟩
  · intro j
    rw [handleLoopStart_cur]
    exact fun h => BlockId.noConfusion h
  · intro b hbmem
    rw [(handleLoopStart_stacks ip st).1] at hbmem
    rcases List.mem_cons.mp hbmem with hx | hx
    · exact ⟨ip, hx⟩
    · exact hs.1 b hx
  · intro b hbmem
    rw [(handleLoopStart_stacks ip st).2] at hbmem
    rcases List.mem_cons.mp hbmem with hx | hx
    · exact ⟨ip, hx⟩
    · exact hs.2 b hx
  · intro b j t hmem ht
    rw [handleLoopStart_blocks ip st b (hc ip)] at hmem
    by_cases h1 : b = BlockId.header ip
    · rw [if_pos h1] at hmem
      simp only [List.mem_singleton] at hmem
      subst hmem
      rcases ht with hz | hnz
      · exact absurd hz (fun h => BlockId.noConfusion h)
      · have hj : ip = j := BlockId.body.inj hnz
        subst hj
        exact ⟨h1, rfl⟩
    · rw [if_neg h1] at hmem
      by_cases h2 : b = st.cur
      · rw [if_pos h2] at hmem
        simp only [List.mem_append, List.mem_singleton] at hmem
        rcases hmem with hold | hnew
        · rcases resetLoopBlocks_cases ip st.blocks st.cur with hr | hr
          · rw [hr] at hold
            cases hold
          · rw [hr] at hold
            have := hb st.cur j t hold ht
            rw [h2]
            exact this
        · subst hnew
          exact absurd ht (fun h => BlockId.noConfusion h)
      · rw [if_neg h2] at hmem
        rcases resetLoopBlocks_cases ip st.blocks b with hr | hr
        · rw [hr] at hmem
          cases hmem
        · rw [hr] at hmem
          exact hb b j t hmem ht

theorem inv_handleLoopEnd (ip : Nat) (st : EmitState) (hinv : EmitInv st) :
    EmitInv (handleLoopEnd ip st) := by
  obtain ⟨hc, hs, hb⟩ := hinv
  cases hls : st.loopStartBlocks with
  | nil =>
    rw [handleLoopEnd_underflow ip st (Or.inl hls)]
    exact ⟨hc, ⟨by simpa [hls] using hs.1, hs.2⟩, hb⟩
  | cons h hsTail =>
    cases hle : st.loopEndBlocks with
    | nil =>
      rw [handleLoopEnd_underflow ip st (Or.inr hle)]
      exact ⟨hc, ⟨by simpa [hls] using hs.1, by simpa [hle] using hs.2⟩, hb⟩
    | cons e esTail =>
      obtain ⟨hcur2, hst2, hen2, hbl2, _⟩ := handleLoopEnd_pop ip st h e hsTail esTail hls hle
      have hh : ∃ j, h = BlockId.header j := hs.1 h (by rw [hls]; exact List.mem_cons_self h hsTail)
      have he : ∃ j, e = BlockId.exit j := hs.2 e (by rw [hle]; exact List.mem_cons_self e esTail)
      refine ⟨?_, ⟨?_, ?_⟩, ?_⟩
      · intro j
        rw [hcur2]
        obtain ⟨j2, hj2⟩ := he
        rw [hj2]
        exact fun hx => BlockId.noConfusion hx
      · intro b hbmem
        rw [hst2] at hbmem
        exact hs.1 b (by rw [hls]; exact List.mem_cons_of_mem h hbmem)
      · intro b hbmem
        rw [hen2] at hbmem
        exact hs.2 b (by rw [hle]; exact List.mem_cons_of_mem e hbmem)
      · intro b j t hmem ht
        rw [hbl2] at hmem
        by_cases hbc : b = st.cur
        · subst hbc
          rw [show updBlocks st.blocks st.cur
              (Block.mk (st.blocks st.cur).instrs ((st.blocks st.cur).terms ++ [Term.br h]))
                st.cur =
              Block.mk (st.blocks st.cur).instrs ((st.blocks st.cur).terms ++ [Term.br h]) by
            simp [updBlocks]] at hmem
          simp only [List.mem_append, List.mem_singleton] at hmem
          rcases hmem with hold | hnew
          · exact hb st.cur j t hold ht
          · subst hnew
            obtain ⟨j2, hj2⟩ := hh
            rw [hj2] at ht
            exact absurd ht (fun hx => BlockId.noConfusion hx)
        · rw [show updBlocks st.blocks st.cur
              (Block.mk (st.blocks st.cur).instrs ((st.blocks st.cur).terms ++ [Term.br h]))
                b = st.blocks b by simp [updBlocks, hbc]] at hmem
          exact hb b j t hmem ht

theorem blocks_emitSInstr_ne (i : SInstr) (st : EmitState) (b : BlockId)
    (h : b ≠ st.cur) : (emitSInstr i st).blocks b = st.blocks b := by
  simp [emitSInstr, updBlocks, h]

theorem blocks_emitTerm_ne (t : Term) (st : EmitState) (b : BlockId)
    (h : b ≠ st.cur) : (emitTerm t st).blocks b = st.blocks b := by
  simp [emitTerm, updBlocks, h]

theorem resetLoopBlocks_ne (ip : Nat) (bs : BlockId → Block) (b : BlockId)
    (h1 : b ≠ BlockId.header ip) (h2 : b ≠ BlockId.body ip)
    (h3 : b ≠ BlockId.exit ip) : resetLoopBlocks ip bs b = bs b := by
  simp [resetLoopBlocks, updBlocks, h1, h2, h3]

theorem blocks_handleLoopStart_ne (ip : Nat) (st : EmitState) (b : BlockId)
    (hcur : st.cur ≠ BlockId.header ip) (h1 : b ≠ BlockId.header ip)
    (h2 : b ≠ BlockId.body ip) (h3 : b ≠ BlockId.exit ip) (h4 : b ≠ st.cur) :
    (handleLoopStart ip st).blocks b = st.blocks b := by
  rw [handleLoopStart_blocks ip st b hcur, if_neg h1, if_neg h4]
  exact resetLoopBlocks_ne ip _ b h1 h2 h3

theorem blocks_handleLoopEnd_ne (ip : Nat) (st : EmitState) (b : BlockId)
    (h : b ≠ st.cur) : (handleLoopEnd ip st).blocks b = st.blocks b := by
  cases hls : st.loopStartBlocks with
  | nil => rw [handleLoopEnd_underflow ip st (Or.inl hls)]
  | cons x xs =>
    cases hle : st.loopEndBlocks with
    | nil => rw [handleLoopEnd_underflow ip st (Or.inr hle)]
    | cons e es =>
      rw [(handleLoopEnd_pop ip st x e xs es hls hle).2.2.2.1]
      simp [updBlocks, h]

theorem inv_genStep (i : Nat) (c : Char) (st : EmitState) (hinv : EmitInv st) :
    EmitInv (genStep i c st) := by
  have hinv1 : EmitInv { st with stats := bumpStat st.stats c } := hinv
  by_cases hic : isInstr c
  · unfold genStep
    rw [if_pos hic]
    split
    · exact inv_emitSInstr _ _ hinv1
    · exact inv_emitSInstr _ _ hinv1
    · exact inv_emitSInstr _ _ hinv1
    · exact inv_emitSInstr _ _ hinv1
    · exact inv_emitSInstr _ _ hinv1
    · exact inv_emitSInstr _ _ hinv1
    · exact inv_handleLoopStart _ _ hinv1
    · exact inv_handleLoopEnd _ _ hinv1
    · exact hinv1
  · unfold genStep
    rw [if_neg hic]
    exact hinv

theorem inv_genLoop (l : List Char) :
    ∀ (k : Nat) (st : EmitState), EmitInv st → EmitInv (genLoop l k st) := by
  induction l with
  | nil => intro k st hinv; exact hinv
  | cons c rest ih =>
    intro k st hinv
    exact ih (k + 1) (genStep k c st) (inv_genStep k c st hinv)

theorem inv_init : EmitInv initEmitState := by
  refine ⟨fun j h => BlockId.noConfusion h, ⟨?_, ?_⟩, ?_⟩
  · intro b hb
    exact absurd hb (List.not_mem_nil b)
  · intro b hb
    exact absurd hb (List.not_mem_nil b)
  · intro b ip t hmem _
    exact absurd hmem (List.not_mem_nil t)

theorem blocks_genStep_header (i : Nat) (c : Char) (st : EmitState) (ip : Nat)
    (hne : i ≠ ip) (hinv : EmitInv st) :
    (genStep i c st).blocks (BlockId.header ip) = st.blocks (BlockId.header ip) := by
  obtain ⟨hc, hs, _⟩ := hinv
  have hnc : BlockId.header ip ≠ st.cur := fun h => hc ip h.symm
  by_cases hic : isInstr c
  · unfold genStep
    rw [if_pos hic]
    split
    · exact blocks_emitSInstr_ne _ _ _ hnc
    · exact blocks_emitSInstr_ne _ _ _ hnc
    · exact blocks_emitSInstr_ne _ _ _ hnc
    · exact blocks_emitSInstr_ne _ _ _ hnc
    · exact blocks_emitSInstr_ne _ _ _ hnc
    · exact blocks_emitSInstr_ne _ _ _ hnc
    · exact blocks_handleLoopStart_ne i _ _ (hc i)
        (fun h => hne (BlockId.header.inj h).symm)
        (fun h => BlockId.noConfusion h)
        (fun h => BlockId.noConfusion h) hnc
    · exact blocks_handleLoopEnd_ne i _ _ hnc
    · rfl
  · unfold genStep
    rw [if_neg hic]

theorem blocks_genLoop_header (l : List Char) :
    ∀ (k : Nat) (st : EmitState) (ip : Nat), ip < k → EmitInv st →
      (genLoop l k st).blocks (BlockId.header ip) = st.blocks (BlockId.header ip) := by
  induction l with
  | nil => intro k st ip _ _; rfl
  | cons c rest ih =>
    intro k st ip hlt hinv
    simp only [genLoop]
    rw [ih (k + 1) _ ip (by omega) (inv_genStep k c st hinv)]
    exact blocks_genStep_header k c st ip (by omega) hinv

theorem header_after_loopStart (ip : Nat) (st : EmitState)
    (hcur : st.cur ≠ BlockId.header ip) :
    (handleLoopStart ip st).blocks (BlockId.header ip) =
      ⟨[], [Term.condbr (BlockId.exit ip) (BlockId.body ip)]⟩ := by
  rw [handleLoopStart_blocks ip st _ hcur, if_pos rfl]

theorem genLoop_header_set (l : List Char) :
    ∀ (j k : Nat) (st : EmitState), l.get? j = some '[' → EmitInv st →
      (genLoop l k st).blocks (BlockId.header (k + j)) =
        ⟨[], [Term.condbr (BlockId.exit (k + j)) (BlockId.body (k + j))]⟩ := by
  induction l with
  | nil => intro j k st hget _; simp at hget
  | cons c rest ih =>
    intro j k st hget hinv
    cases j with
    | zero =>
      have hc : c = '[' := by
        simpa using hget
      subst hc
      show (genLoop ('[' :: rest) k st).blocks (BlockId.header k) =
        ⟨[], [Term.condbr (BlockId.exit k) (BlockId.body k)]⟩
      simp only [genLoop]
      have hstep : genStep k '[' st =
          handleLoopStart k { st with stats := bumpStat st.stats '[' } := rfl
      rw [hstep]
      have hinv1 : EmitInv { st with stats := bumpStat st.stats '[' } := hinv
      rw [blocks_genLoop_header rest (k + 1) _ k (by omega)
        (inv_handleLoopStart k _ hinv1)]
      exact header_after_loopStart k _ (hinv1.1 k)
    | succ j2 =>
      have hget2 : rest.get? j2 = some '[' := by
        simpa using hget
      simp only [genLoop]
      have hidx : k + (j2 + 1) = (k + 1) + j2 := by omega
      rw [hidx]
      exact ih j2 (k + 1) (genStep k c st) hget2 (inv_genStep k c st hinv)

theorem emitted_header (src : String) (ip : Nat)
    (hip : src.toList.get? ip = some '[') :
    emitted src (BlockId.header ip) =
      ⟨[], [Term.condbr (BlockId.exit ip) (BlockId.body ip)]⟩ := by
  unfold emitted generateIR
  have hfin : EmitInv (genLoop src.toList 0 initEmitState) :=
    inv_genLoop _ 0 _ inv_init
  rw [blocks_emitTerm_ne .ret _ (BlockId.header ip) (fun h => hfin.1 ip h.symm)]
  have := genLoop_header_set src.toList ip 0 initEmitState hip inv_init
  simpa using this

theorem bodyEdges_emitted (src : String) : bodyEdgesOk (generateIR src initEmitState) := by
  have hfin : EmitInv (genLoop src.toList 0 initEmitState) :=
    inv_genLoop _ 0 _ inv_init
  have : EmitInv (generateIR src initEmitState) := by
    unfold generateIR
    exact inv_emitTerm_no_body .ret _ hfin (fun ip h => h)
  exact this.2.2

theorem execBlock_eq (bs : BlockId → Block) (blk : BlockId) (m : Machine) :
    execBlock bs blk m =
      match (bs blk).terms.head? with
      | some (.br t) => Sum.inl (t, runBlockInstrs (bs blk) m)
      | some (.condbr z nz) =>
        if (runBlockInstrs (bs blk) m).mem (runBlockInstrs (bs blk) m).cursor = 0
        then Sum.inl (z, runBlockInstrs (bs blk) m)
        else Sum.inl (nz, runBlockInstrs (bs blk) m)
      | some .ret => Sum.inr (runBlockInstrs (bs blk) m)
      | none => Sum.inr (runBlockInstrs (bs blk) m) := rfl

theorem mem_of_headOpt {α : Type} (l : List α) (a : α) (h : l.head? = some a) :
    a ∈ l := by
  cases l with
  | nil => cases h
  | cons x xs =>
    have : x = a := by simpa using h
    subst this
    exact List.mem_cons_self x xs

theorem execBlock_body_entry (bs : BlockId → Block)
    (hedges : ∀ (b : BlockId) (ip : Nat) (t : Term), t ∈ (bs b).terms →
      targetsBody t ip →
      b = BlockId.header ip ∧ t = Term.condbr (BlockId.exit ip) (BlockId.body ip))
    (b : BlockId) (m : Machine) (b2 : BlockId) (m2 : Machine) (ip : Nat)
    (hstep : execBlock bs b m = Sum.inl (b2, m2)) (hb2 : b2 = BlockId.body ip) :
    b = BlockId.header ip ∧ m2.mem m2.cursor ≠ 0 := by
  subst hb2
  rw [execBlock_eq] at hstep
  cases hterm : (bs b).terms.head? with
  | none =>
    rw [hterm] at hstep
    simp at hstep
  | some t =>
    rw [hterm] at hstep
    have hmem : t ∈ (bs b).terms := mem_of_headOpt _ t hterm
    cases t with
    | br tgt =>
      simp only [Sum.inl.injEq, Prod.mk.injEq] at hstep
      obtain ⟨h1, _⟩ := hstep
      have := hedges b ip _ hmem (by exact h1)
      cases this.2
    | condbr z nz =>
      have hstep2 :
          (if (runBlockInstrs (bs b) m).mem (runBlockInstrs (bs b) m).cursor = 0
            then Sum.inl (z, runBlockInstrs (bs b) m)
            else Sum.inl (nz, runBlockInstrs (bs b) m)) =
          (Sum.inl (BlockId.body ip, m2) : (BlockId × Machine) ⊕ Machine) := hstep
      by_cases hcell :
          (runBlockInstrs (bs b) m).mem (runBlockInstrs (bs b) m).cursor = 0
      · rw [if_pos hcell] at hstep2
        simp only [Sum.inl.injEq, Prod.mk.injEq] at hstep2
        obtain ⟨h1, _⟩ := hstep2
        have := hedges b ip _ hmem (Or.inl h1)
        have hz : z = BlockId.exit ip := by
          cases this.2
          rfl
        rw [hz] at h1
        cases h1
      · rw [if_neg hcell] at hstep2
        simp only [Sum.inl.injEq, Prod.mk.injEq] at hstep2
        obtain ⟨h1, h2⟩ := hstep2
        have := hedges b ip _ hmem (Or.inr h1)
        refine ⟨this.1, ?_⟩
        rw [← h2]
        exact hcell
    | ret =>
      simp at hstep

theorem execBlock_header_canonical (bs : BlockId → Block) (ip : Nat) (m : Machine)
    (hhdr : bs (BlockId.header ip) =
      ⟨[], [Term.condbr (BlockId.exit ip) (BlockId.body ip)]⟩) :
    execBlock bs (BlockId.header ip) m =
      Sum.inl ((if m.mem m.cursor = 0 then BlockId.exit ip else BlockId.body ip), m) := by
  rw [execBlock_eq, hhdr]
  simp only [List.head?, runBlockInstrs, List.foldl_nil]
  by_cases hcell : m.mem m.cursor = 0
  · rw [if_pos hcell, if_pos hcell]
  · rw [if_neg hcell, if_neg hcell]

/-- C4: for every `[` at source offset `ip`, the emitted control flow is the
three-block fragment `loop_header_ip` / `loop_body_ip` / `loop_end_ip`:
`handleLoopStart` jumps from the current emission point to the header, the
header (which contains no effectful instruction) loads the current cell,
compares it with 0, and branches to the exit block if zero and to the body
block otherwise, emission continues in the body, and the header/exit pair is
pushed on the loop stacks; for the matching `]`, `handleLoopEnd` pops that pair,
emits a jump from the current emission point back to the popped header, and
moves emission into the popped exit block.  Semantically, stepping the emitted
program from any header evaluates the cell and goes to the body exactly when it
is nonzero, and in the whole emitted program the only transfer into any
`loop_body_j` comes from `loop_header_j` with a nonzero current cell — so a
loop whose cell is 0 at a header evaluation (in particular on first entry)
never executes its body. -/
theorem C4_loop_blocks (src : String) (ip : Nat)
    (hip : src.toList.get? ip = some '[') :
    emitted src (BlockId.header ip) =
      Block.mk [] [Term.condbr (BlockId.exit ip) (BlockId.body ip)]
    ∧ (∀ m : Machine, execBlock (emitted src) (BlockId.header ip) m =
        Sum.inl ((if m.mem m.cursor = 0 then BlockId.exit ip else BlockId.body ip), m))
    ∧ (∀ (b : BlockId) (m : Machine) (b2 : BlockId) (m2 : Machine) (j : Nat),
        execBlock (emitted src) b m = Sum.inl (b2, m2) → b2 = BlockId.body j →
        b = BlockId.header j ∧ m2.mem m2.cursor ≠ 0)
    ∧ (∀ st : EmitState,
        (handleLoopStart ip st).cur = BlockId.body ip
        ∧ (handleLoopStart ip st).loopStartBlocks =
            BlockId.header ip :: st.loopStartBlocks
        ∧ (handleLoopStart ip st).loopEndBlocks =
            BlockId.exit ip :: st.loopEndBlocks
        ∧ (st.cur ≠ BlockId.header ip → st.cur ≠ BlockId.body ip →
            st.cur ≠ BlockId.exit ip →
            ((handleLoopStart ip st).blocks st.cur).terms =
              (st.blocks st.cur).terms ++ [Term.br (BlockId.header ip)]))
    ∧ (∀ (ipEnd : Nat) (st : EmitState) (h e : BlockId) (hs es : List BlockId),
        st.loopStartBlocks = h :: hs → st.loopEndBlocks = e :: es →
        (handleLoopEnd ipEnd st).cur = e
        ∧ (handleLoopEnd ipEnd st).loopStartBlocks = hs
        ∧ (handleLoopEnd ipEnd st).loopEndBlocks = es
        ∧ ((handleLoopEnd ipEnd st).blocks st.cur).terms =
            (st.blocks st.cur).terms ++ [Term.br h]) := by
  have hhdr := emitted_header src ip hip
  refine ⟨hhdr, ?_, ?_, ?_, ?_⟩
  · intro m
    exact execBlock_header_canonical (emitted src) ip m hhdr
  · intro b m b2 m2 j hstep hb2
    exact execBlock_body_entry (emitted src) (bodyEdges_emitted src) b m b2 m2 j hstep hb2
  · intro st
    refine ⟨handleLoopStart_cur ip st, (handleLoopStart_stacks ip st).1,
      (handleLoopStart_stacks ip st).2, ?_⟩
    intro hch hcb hce
    rw [handleLoopStart_blocks ip st st.cur hch, if_neg hch, if_pos rfl,
      resetLoopBlocks_ne ip st.blocks st.cur hch hcb hce]
  · intro ipEnd st h e hs es hls hle
    obtain ⟨h1, h2, h3, h4, _⟩ := handleLoopEnd_pop ipEnd st h e hs es hls hle
    refine ⟨h1, h2, h3, ?_⟩
    rw [h4]
    simp [updBlocks]

/-- C4 witness: instantiation at the source `"[-]"` with its `[` at offset 0,
its `]` at offset 2, and concrete machines with the cell at 0 and at 5. -/
theorem C4_loop_blocks_witness :
    emitted "[-]" (BlockId.header 0) =
      Block.mk [] [Term.condbr (BlockId.exit 0) (BlockId.body 0)]
    ∧ execBlock (emitted "[-]") (BlockId.header 0) (cellMachine 0) =
        Sum.inl ((if (cellMachine 0).mem (cellMachine 0).cursor = 0
          then BlockId.exit 0 else BlockId.body 0), cellMachine 0)
    ∧ (handleLoopStart 0 initEmitState).cur = BlockId.body 0
    ∧ (handleLoopEnd 2 (handleLoopStart 0 initEmitState)).cur = BlockId.exit 0 := by
  have hc := C4_loop_blocks "[-]" 0 (by decide)
  refine ⟨hc.1, hc.2.1 (cellMachine 0), (hc.2.2.2.1 initEmitState).1, ?_⟩
  exact (hc.2.2.2.2 2 (handleLoopStart 0 initEmitState) (BlockId.header 0)
    (BlockId.exit 0) [] [] rfl rfl).1

end BFC
